import Mathlib

/-!
Shallow embedding of the prism-ct-service repository (log directory cache and
log monitoring engine) and proofs about the claims of its specification.

Sources embedded:
- src/log_list/types.rs   (LogState, Log, Operator, LogList)
- src/log_list/error.rs   (LogListError)
- src/log_list/service.rs (CachedLogs, CachingLogListService)
- src/log_monitoring.rs   (register_ct_service, watch_log)

Modelling conventions: byte arrays are lists of Nat; SystemTime is a Nat of
seconds since the UNIX epoch; Rust HashMap is an association list where insert
prepends (so lookup sees the latest binding, matching HashMap::insert's
replace semantics); Rust Vec indexing, which panics out of bounds, is an
Option-valued lookup where none models the panic; external fallible
collaborators (network fetch, signature parsing, keystore, ledger submission)
are oracles passed in as explicit parameters.
-/

namespace PrismCT

/-- Log state from src/log_list/types.rs (LogState), timestamps as Nat. -/
inductive LogState where
  | pending (timestamp : Nat)
  | usable (timestamp : Nat)
  | readonly (timestamp : Nat) (final_sha256_root_hash : List Nat) (final_tree_size : Int)
  | retired (timestamp : Nat)
  | rejected (timestamp : Nat)
deriving DecidableEq, Repr

/-- Log entry from src/log_list/types.rs (Log). -/
structure Log where
  description : String
  log_id : String
  key : List Nat
  url : String
  mmd : Int
  state : Option LogState
deriving DecidableEq, Repr

/-- Log::is_usable from src/log_list/types.rs: true iff state is Some(Usable). -/
def Log.is_usable (l : Log) : Bool :=
  match l.state with
  | some (LogState.usable _) => true
  | _ => false

/-- Operator from src/log_list/types.rs (tiled_logs omitted: never read by the cache). -/
structure Operator where
  name : String
  email : List String
  logs : List Log
deriving DecidableEq, Repr

/-- LogList from src/log_list/types.rs. -/
structure LogList where
  is_all_logs : Bool
  version : String
  log_list_timestamp : Nat
  operators : List Operator
deriving DecidableEq, Repr

/-- LogListError from src/log_list/error.rs; the ReqwestError payload is its message. -/
inductive LogListError where
  | networkError (msg : String)
  | parseError (msg : String)
deriving DecidableEq, Repr

/-- Rust Result specialized to LogListError failures. -/
inductive LLRes (α : Type) where
  | ok (value : α)
  | err (e : LogListError)
deriving DecidableEq, Repr

/-- HashMap::insert modelled on association lists: prepend, so lookup sees it first. -/
def hmInsert {β : Type} (m : List (String × β)) (k : String) (v : β) : List (String × β) :=
  (k, v) :: m

/-- HashMap::get modelled on association lists: first binding wins. -/
def hmGet {β : Type} (m : List (String × β)) (k : String) : Option β :=
  match m with
  | [] => none
  | (k', v) :: rest => if k' = k then some v else hmGet rest k

/-- Vec indexing, none models the out-of-bounds panic. -/
def getIdx (logs : List Log) : Nat → Option Log :=
  fun i =>
    match logs, i with
    | [], _ => none
    | l :: _, 0 => some l
    | _ :: rest, n + 1 => getIdx rest n

/-- Collecting cache.logs[i] over an index list; none models an out-of-bounds panic. -/
def getLogs (logs : List Log) (indices : List Nat) : Option (List Log) :=
  match indices with
  | [] => some []
  | i :: rest =>
    match getIdx logs i, getLogs logs rest with
    | some l, some ls => some (l :: ls)
    | _, _ => none

/-- CachedLogs from src/log_list/service.rs. -/
structure CachedLogs where
  logs : List Log
  logs_by_id : List (String × Nat)
  logs_by_operator : List (String × List Nat)
  last_updated : Nat
deriving DecidableEq, Repr

/-- CachedLogs::default: empty indices, last_updated = UNIX_EPOCH. -/
def CachedLogs.empty : CachedLogs :=
  { logs := [], logs_by_id := [], logs_by_operator := [], last_updated := 0 }

/-- Inner for-loop of check_and_refresh_cache: iterate one operator's logs, skipping
non-usable ones, appending usable ones and recording their indices. -/
def processLogs (ls : List Log) (logs : List Log) (by_id : List (String × Nat))
    (opIdx : List Nat) : List Log × List (String × Nat) × List Nat :=
  match ls with
  | [] => (logs, by_id, opIdx)
  | log :: rest =>
    if log.is_usable then
      processLogs rest (logs ++ [log]) (hmInsert by_id log.log_id logs.length)
        (opIdx ++ [logs.length])
    else
      processLogs rest logs by_id opIdx

/-- Outer for-loop of check_and_refresh_cache: iterate operators, building the new
logs vector and both indices. -/
def processOperators (ops : List Operator) (logs : List Log) (by_id : List (String × Nat))
    (by_op : List (String × List Nat)) :
    List Log × List (String × Nat) × List (String × List Nat) :=
  match ops with
  | [] => (logs, by_id, by_op)
  | op :: rest =>
    let r := processLogs op.logs logs by_id []
    processOperators rest r.1 r.2.1 (hmInsert by_op op.name r.2.2)

/-- Index rebuild performed by check_and_refresh_cache after a successful fetch:
fresh vectors and maps from scratch, last_updated set to now. -/
def rebuildCache (new_log_list : LogList) (now : Nat) : CachedLogs :=
  let r := processOperators new_log_list.operators [] [] []
  { logs := r.1, logs_by_id := r.2.1, logs_by_operator := r.2.2, last_updated := now }

/-- SystemTime::duration_since: none models the Err on clock-went-backwards. -/
def duration_since (now earlier : Nat) : Option Nat :=
  if earlier ≤ now then some (now - earlier) else none

/-- CachingLogListService state: the cache plus the configured TTL (seconds). -/
structure ServiceState where
  cache : CachedLogs
  cache_duration : Nat
deriving DecidableEq, Repr

/-- DEFAULT_CACHE_DURATION from src/log_list/service.rs: 24 hours in seconds. -/
def DEFAULT_CACHE_DURATION : Nat := 60 * 60 * 24

/-- CachingLogListService::default(): empty cache, default TTL. -/
def ServiceState.empty : ServiceState :=
  { cache := CachedLogs.empty, cache_duration := DEFAULT_CACHE_DURATION }

/-- check_and_refresh_cache from src/log_list/service.rs. The network fetch is the
fetchResult oracle; the returned Nat counts directory fetches performed (0 or 1). -/
def check_and_refresh_cache (s : ServiceState) (now : Nat) (fetchResult : LLRes LogList) :
    LLRes (ServiceState × Nat) :=
  let fresh :=
    match duration_since now s.cache.last_updated with
    | some d => decide (d < s.cache_duration)
    | none => false
  if fresh then
    LLRes.ok (s, 0)
  else
    match fetchResult with
    | LLRes.err e => LLRes.err e
    | LLRes.ok new_log_list =>
      LLRes.ok ({ s with cache := rebuildCache new_log_list now }, 1)

/-- Cache-level part of CachingLogListService::get_by_id (after the freshness step):
index lookup, then vector access. The outer none models an index-out-of-bounds panic. -/
def get_by_id (cache : CachedLogs) (id : String) : Option (LLRes Log) :=
  match hmGet cache.logs_by_id id with
  | some index => (getIdx cache.logs index).map (fun l => LLRes.ok l)
  | none => some (LLRes.err (LogListError.parseError "Log not found"))

/-- Cache-level part of CachingLogListService::get_all_by_operator (after the
freshness step): unknown operators yield Ok([]) via unwrap_or_default. -/
def get_all_by_operator (cache : CachedLogs) (operator : String) :
    Option (LLRes (List Log)) :=
  match hmGet cache.logs_by_operator operator with
  | some indices => (getLogs cache.logs indices).map (fun ls => LLRes.ok ls)
  | none => some (LLRes.ok [])

/-- CachingLogListService::get_by_id: ensure freshness, then read. -/
def service_get_by_id (s : ServiceState) (now : Nat) (fetchResult : LLRes LogList)
    (id : String) : Option (LLRes Log) :=
  match check_and_refresh_cache s now fetchResult with
  | LLRes.err e => some (LLRes.err e)
  | LLRes.ok (s', _) => get_by_id s'.cache id

/-- CachingLogListService::get_all_by_operator: ensure freshness, then read. -/
def service_get_all_by_operator (s : ServiceState) (now : Nat) (fetchResult : LLRes LogList)
    (operator : String) : Option (LLRes (List Log)) :=
  match check_and_refresh_cache s now fetchResult with
  | LLRes.err e => some (LLRes.err e)
  | LLRes.ok (s', _) => get_all_by_operator s'.cache operator

/-- Usable sublist of a log list, in order: exactly the logs the rebuild keeps. -/
def usableOf (ls : List Log) : List Log :=
  ls.filter (fun l => l.is_usable)

/-- Boolean check that every stored index is within the logs vector. -/
def indicesInBounds (c : CachedLogs) : Bool :=
  c.logs_by_id.all (fun kv => decide (kv.2 < c.logs.length)) &&
  c.logs_by_operator.all (fun kv => kv.2.all (fun i => decide (i < c.logs.length)))

/-- A log value is reachable through get_by_id on its own id. -/
def reachableViaId (c : CachedLogs) (l : Log) : Bool :=
  match get_by_id c l.log_id with
  | some (LLRes.ok l') => decide (l' = l)
  | _ => false

/-- A log value is reachable through get_all_by_operator on a given operator name. -/
def reachableViaOperator (c : CachedLogs) (opName : String) (l : Log) : Bool :=
  match get_all_by_operator c opName with
  | some (LLRes.ok ls) => decide (l ∈ ls)
  | _ => false

/-- Discriminator for the parse-error variant of LogListError. -/
def isParseError (e : LogListError) : Bool :=
  match e with
  | LogListError.parseError _ => true
  | LogListError.networkError _ => false

/-- CT_SERVICE_KEY_ID, the well-known service identifier (the constant itself is
declared at crate root, outside the provided modules; its value is immaterial). -/
def CT_SERVICE_KEY_ID : String := "ct-service"

/-- Operations submitted to the ledger, from prism_common as used by
src/log_monitoring.rs; keys and signatures are abstracted to Nat identities. -/
inductive Operation where
  | registerService (id : String) (key : Nat)
  | createAccount (id : String) (service_id : String) (challenge : Nat) (key : Nat)
  | setData (data : List Nat) (verifying_key : Nat) (signature : Nat)
deriving DecidableEq, Repr

/-- A prepared ledger transaction: account id, chain position, operation, signer. -/
structure Transaction where
  id : String
  nonce : Nat
  op : Operation
  signer : Nat
deriving DecidableEq, Repr

/-- Local ledger account state: the chain of transactions applied so far. -/
structure Account where
  processed : List Transaction
deriving DecidableEq, Repr

/-- Account::default(): empty transaction chain. -/
def Account.defaultAccount : Account :=
  { processed := [] }

/-- Account::prepare_transaction: build a transaction at the current chain position. -/
def Account.prepare_transaction (a : Account) (id : String) (op : Operation) (sk : Nat) :
    Transaction :=
  { id := id, nonce := a.processed.length, op := op, signer := sk }

/-- Account::process_transaction: apply a transaction, advancing the chain. -/
def Account.process_transaction (a : Account) (tx : Transaction) : Account :=
  { processed := a.processed ++ [tx] }

/-- Modelled from the spec: the external LedgerGateway (prism Prover) interface of
section 6 of the specification. Its accounts answer query_account; a queued
registration or account-creation transaction makes the account exist. -/
structure ProverState where
  accounts : List String
  queued : List Transaction
deriving DecidableEq, Repr

/-- Modelled from the spec: validate_and_queue_update on the external ledger —
submission is accepted, and a registration or creation creates its account. -/
def submitTx (p : ProverState) (tx : Transaction) : ProverState :=
  { accounts :=
      match tx.op with
      | Operation.registerService id _ => p.accounts ++ [id]
      | Operation.createAccount id _ _ _ => p.accounts ++ [id]
      | Operation.setData _ _ _ => p.accounts,
    queued := p.queued ++ [tx] }

/-- register_ct_service from src/log_monitoring.rs. keystore_key is the oracle for
KeyChain.get_signing_key (none models its failure); get_account is membership in
the ledger's accounts. Returns none on error, otherwise the new ledger state and
the number of registration transactions submitted by this call. -/
def register_ct_service (p : ProverState) (keystore_key : Option Nat) :
    Option (ProverState × Nat) :=
  if CT_SERVICE_KEY_ID ∈ p.accounts then
    some (p, 0)
  else
    match keystore_key with
    | none => none
    | some vk =>
      let register_op := Operation.registerService CT_SERVICE_KEY_ID vk
      let register_tx :=
        Account.defaultAccount.prepare_transaction CT_SERVICE_KEY_ID register_op vk
      some (submitTx p register_tx, 1)

/-- A signed tree head as consumed by watch_log: root_hash is the 32-byte hash,
body models head.get_body(), and sig_parse is the oracle for
Signature::from_algorithm_and_der(Secp256r1, signature[4..]) (none = parse failure). -/
structure SignedTreeHead where
  root_hash : List Nat
  body : List Nat
  sig_parse : Option Nat
deriving DecidableEq, Repr

/-- SthResult from ctclient as matched by watch_log. -/
inductive SthResult where
  | ok (head : SignedTreeHead)
  | err
  | errWithSth (head : SignedTreeHead)
deriving DecidableEq, Repr

/-- Observable actions of one watch_log loop iteration, in program order. -/
inductive WatchAction where
  | setLastSeen (h : List Nat)
  | submitAttempt (tx : Transaction)
  | submitOk (tx : Transaction)
  | applyAccount (tx : Transaction)
  | logErr
deriving DecidableEq, Repr

/-- The initial last_tree_head of watch_log: let mut last_tree_head = [0u8; 32]. -/
def zeros32 : List Nat := List.replicate 32 0

/-- Watcher-local state: the last_tree_head variable and the ledger account. -/
structure WatchState where
  last_tree_head : List Nat
  account : Account
deriving DecidableEq, Repr

/-- The inner retry loop of watch_log: the ledger fails the first failures attempts,
then acknowledges. Emits one submitAttempt per try and a final submitOk. -/
def submitLoop (tx : Transaction) (failures : Nat) : List WatchAction :=
  match failures with
  | 0 => [WatchAction.submitAttempt tx, WatchAction.submitOk tx]
  | n + 1 => WatchAction.submitAttempt tx :: submitLoop tx n

/-- One iteration of the watch_log polling loop over one SthResult, mirroring
src/log_monitoring.rs line by line. failures is the ledger oracle for this
iteration (number of submission failures before success). Returns the new state,
the ordered action trace, and false when the iteration makes watch_log return Err
(the signature-parse ? operator). Note the code assigns last_tree_head BEFORE
parsing the signature and submitting. -/
def watchStep (log_id : String) (log_vk : Nat) (service_sk : Nat) (s : WatchState)
    (ev : SthResult) (failures : Nat) : WatchState × List WatchAction × Bool :=
  match ev with
  | SthResult.ok head =>
    if head.root_hash = s.last_tree_head then
      (s, [], true)
    else
      match head.sig_parse with
      | none =>
        ({ s with last_tree_head := head.root_hash },
          [WatchAction.setLastSeen head.root_hash], false)
      | some sig =>
        let update_op := Operation.setData head.body log_vk sig
        let update_tx := s.account.prepare_transaction log_id update_op service_sk
        ({ last_tree_head := head.root_hash,
           account := s.account.process_transaction update_tx },
          WatchAction.setLastSeen head.root_hash ::
            (submitLoop update_tx failures ++ [WatchAction.applyAccount update_tx]),
          true)
  | SthResult.err => (s, [WatchAction.logErr], true)
  | SthResult.errWithSth head =>
    if head.root_hash = s.last_tree_head then
      (s, [WatchAction.logErr], true)
    else
      ({ s with last_tree_head := head.root_hash },
        [WatchAction.logErr, WatchAction.setLastSeen head.root_hash], true)

/-- Running watch_log over a finite trace of poll outcomes, each paired with that
iteration's submission-failure count; stops early when an iteration errors out. -/
def watchRun (log_id : String) (log_vk : Nat) (service_sk : Nat) (s : WatchState) :
    List (SthResult × Nat) → WatchState × List WatchAction :=
  fun evs =>
    match evs with
    | [] => (s, [])
    | (ev, f) :: rest =>
      let r := watchStep log_id log_vk service_sk s ev f
      if r.2.2 then
        let r' := watchRun log_id log_vk service_sk r.1 rest
        (r'.1, r.2.1 ++ r'.2)
      else
        (r.1, r.2.1)

/-- Count of submission attempts in an action trace. -/
def submitAttemptCount (acts : List WatchAction) : Nat :=
  (acts.filter (fun a =>
    match a with
    | WatchAction.submitAttempt _ => true
    | _ => false)).length

/-- The transactions of the submission attempts in an action trace, in order. -/
def attemptTxs (acts : List WatchAction) : List Transaction :=
  acts.filterMap (fun a =>
    match a with
    | WatchAction.submitAttempt tx => some tx
    | _ => none)

/-- The data payloads of the submission attempts in an action trace, in order. -/
def attemptedData (acts : List WatchAction) : List (List Nat) :=
  acts.filterMap (fun a =>
    match a with
    | WatchAction.submitAttempt tx =>
      match tx.op with
      | Operation.setData d _ _ => some d
      | _ => none
    | _ => none)

/-- Scanner: every applyAccount in the trace is preceded by a submitOk of the very
same transaction; acked accumulates the transactions acknowledged so far. -/
def appliesAfterAck (acked : List Transaction) : List WatchAction → Bool :=
  fun acts =>
    match acts with
    | [] => true
    | WatchAction.submitOk tx :: rest => appliesAfterAck (tx :: acked) rest
    | WatchAction.applyAccount tx :: rest =>
      decide (tx ∈ acked) && appliesAfterAck acked rest
    | _ :: rest => appliesAfterAck acked rest

/-- Scanner: every setLastSeen in the trace is preceded by some submitOk; acked
records whether any acknowledgment has occurred so far. -/
def seenAfterAck (acked : Bool) : List WatchAction → Bool :=
  fun acts =>
    match acts with
    | [] => true
    | WatchAction.submitOk _ :: rest => seenAfterAck true rest
    | WatchAction.setLastSeen _ :: rest => acked && seenAfterAck acked rest
    | _ :: rest => seenAfterAck acked rest

/-! Concrete instances used by counterexamples and witnesses. -/

/-- A usable log state with timestamp 0. -/
def usableState : LogState := LogState.usable 0

/-- First of two usable logs sharing id "L" under two operators both named "X". -/
def logDupOne : Log :=
  { description := "one", log_id := "L", key := [], url := "u1", mmd := 1,
    state := some usableState }

/-- Second of two usable logs sharing id "L" under two operators both named "X". -/
def logDupTwo : Log :=
  { description := "two", log_id := "L", key := [], url := "u2", mmd := 1,
    state := some usableState }

/-- A directory with two operators of the same name claiming the same log id. -/
def dirDup : LogList :=
  { is_all_logs := true, version := "1", log_list_timestamp := 0,
    operators := [{ name := "X", email := [], logs := [logDupOne] },
                  { name := "X", email := [], logs := [logDupTwo] }] }

/-- A directory with no operators. -/
def emptyDir : LogList :=
  { is_all_logs := true, version := "1", log_list_timestamp := 0, operators := [] }

/-- The usable log of the round-trip example operator "Acme". -/
def logAcme1 : Log :=
  { description := "Acme log 1", log_id := "L1", key := [], url := "a1", mmd := 1,
    state := some usableState }

/-- The rejected log of the round-trip example operator "Acme". -/
def logAcme2 : Log :=
  { description := "Acme log 2", log_id := "L2", key := [], url := "a2", mmd := 1,
    state := some (LogState.rejected 0) }

/-- The round-trip example operator "Acme" with a usable and a rejected log. -/
def opAcme : Operator :=
  { name := "Acme", email := [], logs := [logAcme1, logAcme2] }

/-- A well-formed directory with one operator "Acme" owning a usable and a rejected log. -/
def dirAcme : LogList :=
  { is_all_logs := true, version := "1", log_list_timestamp := 0,
    operators := [opAcme] }

/-- A service state with an empty cache and a TTL of 100 seconds. -/
def svcW : ServiceState :=
  { cache := CachedLogs.empty, cache_duration := 100 }

/-- Checkpoint with root hash of 32 one-bytes, used as A in watcher runs. -/
def headA : SignedTreeHead :=
  { root_hash := List.replicate 32 1, body := [1], sig_parse := some 10 }

/-- Checkpoint with root hash of 32 two-bytes, used as B in watcher runs. -/
def headB : SignedTreeHead :=
  { root_hash := List.replicate 32 2, body := [2], sig_parse := some 20 }

/-- Checkpoint with root hash of 32 three-bytes, used as C in watcher runs. -/
def headC : SignedTreeHead :=
  { root_hash := List.replicate 32 3, body := [3], sig_parse := some 30 }

/-- Checkpoint whose tree-head signature fails to parse. -/
def headBadSig : SignedTreeHead :=
  { root_hash := List.replicate 32 7, body := [7], sig_parse := none }

/-- Fresh watcher state: zero last_tree_head, empty account. -/
def wsInit : WatchState :=
  { last_tree_head := zeros32, account := Account.defaultAccount }

/-- The [A, A, B, B, C] poll outcome sequence with every submission succeeding. -/
def eventsAABBC : List (SthResult × Nat) :=
  [(SthResult.ok headA, 0), (SthResult.ok headA, 0), (SthResult.ok headB, 0),
   (SthResult.ok headB, 0), (SthResult.ok headC, 0)]

/-- A ledger that already has the well-known service account. -/
def proverWithService : ProverState :=
  { accounts := [CT_SERVICE_KEY_ID], queued := [] }

/-! Helper lemmas about the association-list map and vector indexing. -/

theorem hmGet_insert_self {β : Type} (m : List (String × β)) (k : String) (v : β) :
    hmGet (hmInsert m k v) k = some v := by
  simp [hmInsert, hmGet]

theorem hmGet_insert_ne {β : Type} (m : List (String × β)) (k' k : String) (v : β)
    (h : k' ≠ k) : hmGet (hmInsert m k' v) k = hmGet m k := by
  simp [hmInsert, hmGet, h]

theorem hmGet_mem {β : Type} (m : List (String × β)) (k : String) (v : β)
    (h : hmGet m k = some v) : (k, v) ∈ m := by
  induction m with
  | nil => simp [hmGet] at h
  | cons p rest ih =>
    obtain ⟨k', v'⟩ := p
    by_cases hk : k' = k
    · subst hk
      simp [hmGet] at h
      simp [h]
    · simp [hmGet, hk] at h
      exact List.mem_cons_of_mem _ (ih h)

theorem getIdx_append_left (logs ext : List Log) (i : Nat) (h : i < logs.length) :
    getIdx (logs ++ ext) i = getIdx logs i := by
  induction logs generalizing i with
  | nil => simp at h
  | cons l rest ih =>
    cases i with
    | zero => simp [getIdx]
    | succ n =>
      simp only [List.cons_append, getIdx]
      exact ih n (by simpa using Nat.lt_of_succ_lt_succ h)

theorem getIdx_append_length (logs : List Log) (l : Log) (ext : List Log) :
    getIdx (logs ++ l :: ext) logs.length = some l := by
  induction logs with
  | nil => simp [getIdx]
  | cons x rest ih => simpa [getIdx] using ih

theorem getIdx_mem (logs : List Log) (i : Nat) (l : Log) (h : getIdx logs i = some l) :
    l ∈ logs := by
  induction logs generalizing i with
  | nil => simp [getIdx] at h
  | cons x rest ih =>
    cases i with
    | zero =>
      simp [getIdx] at h
      simp [h]
    | succ n =>
      simp only [getIdx] at h
      exact List.mem_cons_of_mem _ (ih n h)

theorem getIdx_isSome (logs : List Log) (i : Nat) (h : i < logs.length) :
    (getIdx logs i).isSome = true := by
  induction logs generalizing i with
  | nil => simp at h
  | cons x rest ih =>
    cases i with
    | zero => simp [getIdx]
    | succ n =>
      simp only [getIdx]
      exact ih n (by simpa using Nat.lt_of_succ_lt_succ h)

theorem getLogs_of_map (logs : List Log) (idxs : List Nat) (ls : List Log)
    (h : idxs.map (getIdx logs) = ls.map some) : getLogs logs idxs = some ls := by
  induction idxs generalizing ls with
  | nil =>
    cases ls with
    | nil => simp [getLogs]
    | cons _ _ => simp at h
  | cons i rest ih =>
    cases ls with
    | nil => simp at h
    | cons l ls' =>
      simp only [List.map_cons, List.cons_eq_cons] at h
      simp [getLogs, h.1, ih ls' h.2]

theorem getLogs_isSome (logs : List Log) (idxs : List Nat)
    (h : ∀ i ∈ idxs, i < logs.length) : (getLogs logs idxs).isSome = true := by
  induction idxs with
  | nil => simp [getLogs]
  | cons i rest ih =>
    have hi : i < logs.length := h i (List.mem_cons_self i rest)
    have hrest : (getLogs logs rest).isSome = true :=
      ih (fun j hj => h j (List.mem_cons_of_mem _ hj))
    obtain ⟨l, hl⟩ := Option.isSome_iff_exists.mp (getIdx_isSome logs i hi)
    obtain ⟨ls, hls⟩ := Option.isSome_iff_exists.mp hrest
    simp [getLogs, hl, hls]

theorem getLogs_mem (logs : List Log) (idxs : List Nat) (ls : List Log)
    (h : getLogs logs idxs = some ls) : ∀ l ∈ ls, l ∈ logs := by
  induction idxs generalizing ls with
  | nil =>
    simp [getLogs] at h
    subst h
    simp
  | cons i rest ih =>
    simp only [getLogs] at h
    cases hgi : getIdx logs i with
    | none => simp [hgi] at h
    | some l0 =>
      cases hgl : getLogs logs rest with
      | none => simp [hgi, hgl] at h
      | some ls0 =>
        simp [hgi, hgl] at h
        subst h
        intro l hl
        rcases List.mem_cons.mp hl with h1 | h2
        · subst h1
          exact getIdx_mem logs i l hgi
        · exact ih ls0 hgl l h2

/-! Invariants of the index rebuild. -/

theorem processLogs_logs (ls : List Log) :
    ∀ logs by_id opIdx, (processLogs ls logs by_id opIdx).1 = logs ++ usableOf ls := by
  induction ls with
  | nil => intro logs by_id opIdx; simp [processLogs, usableOf]
  | cons log rest ih =>
    intro logs by_id opIdx
    by_cases hu : log.is_usable
    · simp only [processLogs, hu, if_pos, usableOf, List.filter_cons_of_pos]
      rw [ih]
      simp [usableOf]
    · simp only [processLogs, hu, if_neg, usableOf, List.filter_cons_of_neg,
        Bool.not_eq_true]
      rw [ih]
      simp [usableOf, hu]

theorem processLogs_opIdx (ls : List Log) :
    ∀ logs by_id opIdx acc,
    (∀ i ∈ opIdx, i < logs.length) →
    opIdx.map (getIdx logs) = acc.map some →
    (∀ i ∈ (processLogs ls logs by_id opIdx).2.2,
        i < (processLogs ls logs by_id opIdx).1.length) ∧
    (processLogs ls logs by_id opIdx).2.2.map (getIdx (processLogs ls logs by_id opIdx).1)
      = (acc ++ usableOf ls).map some := by
  induction ls with
  | nil =>
    intro logs by_id opIdx acc hb hm
    simp only [processLogs, usableOf, List.filter_nil, List.append_nil]
    exact ⟨hb, hm⟩
  | cons log rest ih =>
    intro logs by_id opIdx acc hb hm
    by_cases hu : log.is_usable
    · simp only [processLogs, hu, if_pos]
      have hb' : ∀ i ∈ opIdx ++ [logs.length], i < (logs ++ [log]).length := by
        intro i hi
        rcases List.mem_append.mp hi with h1 | h2
        · have := hb i h1
          simp only [List.length_append, List.length_singleton]
          omega
        · simp at h2
          simp [h2]
      have hm' : (opIdx ++ [logs.length]).map (getIdx (logs ++ [log]))
          = (acc ++ [log]).map some := by
        rw [List.map_append, List.map_append]
        congr 1
        · calc opIdx.map (getIdx (logs ++ [log]))
              = opIdx.map (getIdx logs) := by
                apply List.map_congr_left
                intro i hi
                exact getIdx_append_left logs [log] i (hb i hi)
            _ = acc.map some := hm
        · simp [getIdx_append_length logs log []]
      have h := ih (logs ++ [log]) (hmInsert by_id log.log_id logs.length)
        (opIdx ++ [logs.length]) (acc ++ [log]) hb' hm'
      refine ⟨h.1, ?_⟩
      rw [h.2]
      simp [usableOf, List.filter_cons_of_pos, hu]
    · simp only [processLogs, hu, if_neg, Bool.not_eq_true]
      have h := ih logs by_id opIdx acc hb hm
      refine ⟨h.1, ?_⟩
      rw [h.2]
      simp [usableOf, List.filter_cons_of_neg, hu]

theorem processLogs_by_id_bound (ls : List Log) :
    ∀ logs by_id opIdx,
    (∀ p ∈ by_id, p.2 < logs.length) →
    ∀ p ∈ (processLogs ls logs by_id opIdx).2.1,
      p.2 < (processLogs ls logs by_id opIdx).1.length := by
  induction ls with
  | nil =>
    intro logs by_id opIdx hb
    simpa [processLogs] using hb
  | cons log rest ih =>
    intro logs by_id opIdx hb
    by_cases hu : log.is_usable
    · simp only [processLogs, hu, if_pos]
      apply ih
      intro p hp
      rcases List.mem_cons.mp hp with h1 | h2
      · subst h1
        simp
      · have := hb p h2
        simp only [List.length_append, List.length_singleton]
        omega
    · simp only [processLogs, hu, if_neg, Bool.not_eq_true]
      exact ih logs by_id opIdx hb

theorem processLogs_usable (ls : List Log) :
    ∀ logs by_id opIdx,
    (∀ l ∈ logs, l.is_usable = true) →
    ∀ l ∈ (processLogs ls logs by_id opIdx).1, l.is_usable = true := by
  induction ls with
  | nil =>
    intro logs by_id opIdx hU
    simpa [processLogs] using hU
  | cons log rest ih =>
    intro logs by_id opIdx hU
    by_cases hu : log.is_usable
    · simp only [processLogs, hu, if_pos]
      apply ih
      intro l hl
      rcases List.mem_append.mp hl with h1 | h2
      · exact hU l h1
      · simp at h2
        subst h2
        exact hu
    · simp only [processLogs, hu, if_neg, Bool.not_eq_true]
      exact ih logs by_id opIdx hU

theorem processOperators_ext (ops : List Operator) :
    ∀ logs by_id by_op,
    ∃ ext, (processOperators ops logs by_id by_op).1 = logs ++ ext := by
  induction ops with
  | nil =>
    intro logs by_id by_op
    exact ⟨[], by simp [processOperators]⟩
  | cons op rest ih =>
    intro logs by_id by_op
    simp only [processOperators]
    obtain ⟨ext, hext⟩ := ih (processLogs op.logs logs by_id []).1
      (processLogs op.logs logs by_id []).2.1
      (hmInsert by_op op.name (processLogs op.logs logs by_id []).2.2)
    refine ⟨usableOf op.logs ++ ext, ?_⟩
    rw [hext, processLogs_logs, List.append_assoc]

theorem processOperators_usable (ops : List Operator) :
    ∀ logs by_id by_op,
    (∀ l ∈ logs, l.is_usable = true) →
    ∀ l ∈ (processOperators ops logs by_id by_op).1, l.is_usable = true := by
  induction ops with
  | nil =>
    intro logs by_id by_op hU
    simpa [processOperators] using hU
  | cons op rest ih =>
    intro logs by_id by_op hU
    simp only [processOperators]
    exact ih _ _ _ (processLogs_usable op.logs logs by_id [] hU)

theorem processOperators_by_id_bound (ops : List Operator) :
    ∀ logs by_id by_op,
    (∀ p ∈ by_id, p.2 < logs.length) →
    ∀ p ∈ (processOperators ops logs by_id by_op).2.1,
      p.2 < (processOperators ops logs by_id by_op).1.length := by
  induction ops with
  | nil =>
    intro logs by_id by_op hb
    simpa [processOperators] using hb
  | cons op rest ih =>
    intro logs by_id by_op hb
    simp only [processOperators]
    exact ih _ _ _ (processLogs_by_id_bound op.logs logs by_id [] hb)

theorem processOperators_by_op_bound (ops : List Operator) :
    ∀ logs by_id by_op,
    (∀ p ∈ by_op, ∀ i ∈ p.2, i < logs.length) →
    ∀ p ∈ (processOperators ops logs by_id by_op).2.2,
      ∀ i ∈ p.2, i < (processOperators ops logs by_id by_op).1.length := by
  induction ops with
  | nil =>
    intro logs by_id by_op hb
    simpa [processOperators] using hb
  | cons op rest ih =>
    intro logs by_id by_op hb
    simp only [processOperators]
    apply ih
    intro p hp i hi
    rcases List.mem_cons.mp hp with h1 | h2
    · subst h1
      exact (processLogs_opIdx op.logs logs by_id [] [] (by simp) (by simp)).1 i hi
    · have := hb p h2 i hi
      rw [processLogs_logs]
      simp only [List.length_append]
      omega

theorem processOperators_lookup_stable (ops : List Operator) :
    ∀ logs by_id by_op name,
    name ∉ ops.map Operator.name →
    hmGet (processOperators ops logs by_id by_op).2.2 name = hmGet by_op name := by
  induction ops with
  | nil =>
    intro logs by_id by_op name _
    simp [processOperators]
  | cons op rest ih =>
    intro logs by_id by_op name hn
    simp only [List.map_cons, List.mem_cons, not_or] at hn
    simp only [processOperators]
    rw [ih _ _ _ name hn.2]
    exact hmGet_insert_ne _ op.name name _ (fun h => hn.1 h.symm)

theorem processOperators_found (ops : List Operator) :
    ∀ logs by_id by_op op,
    op ∈ ops →
    (ops.map Operator.name).Nodup →
    ∃ idxs, hmGet (processOperators ops logs by_id by_op).2.2 op.name = some idxs ∧
      idxs.map (getIdx (processOperators ops logs by_id by_op).1)
        = (usableOf op.logs).map some := by
  induction ops with
  | nil =>
    intro logs by_id by_op op hmem
    simp at hmem
  | cons op0 rest ih =>
    intro logs by_id by_op op hmem hnd
    simp only [List.map_cons, List.nodup_cons] at hnd
    rcases List.mem_cons.mp hmem with heq | hmem'
    · subst heq
      simp only [processOperators]
      set r := processLogs op.logs logs by_id [] with hr
      have hspec := processLogs_opIdx op.logs logs by_id [] [] (by simp) (by simp)
      obtain ⟨ext, hext⟩ := processOperators_ext rest r.1 r.2.1
        (hmInsert by_op op.name r.2.2)
      refine ⟨r.2.2, ?_, ?_⟩
      · rw [processOperators_lookup_stable rest _ _ _ op.name hnd.1]
        exact hmGet_insert_self _ _ _
      · rw [hext]
        calc r.2.2.map (getIdx (r.1 ++ ext))
            = r.2.2.map (getIdx r.1) := by
              apply List.map_congr_left
              intro i hi
              exact getIdx_append_left r.1 ext i (hspec.1 i hi)
          _ = (usableOf op.logs).map some := by simpa using hspec.2
    · simp only [processOperators]
      exact ih _ _ _ op hmem' hnd.2

/-! Corollaries at the level of a rebuilt cache and its getters. -/

theorem rebuildCache_usable (d : LogList) (now : Nat) :
    ∀ l ∈ (rebuildCache d now).logs, l.is_usable = true := by
  intro l hl
  exact processOperators_usable d.operators [] [] [] (by simp) l hl

theorem rebuildCache_by_id_bound (d : LogList) (now : Nat) :
    ∀ p ∈ (rebuildCache d now).logs_by_id, p.2 < (rebuildCache d now).logs.length := by
  intro p hp
  exact processOperators_by_id_bound d.operators [] [] [] (by simp) p hp

theorem rebuildCache_by_op_bound (d : LogList) (now : Nat) :
    ∀ p ∈ (rebuildCache d now).logs_by_operator, ∀ i ∈ p.2,
      i < (rebuildCache d now).logs.length := by
  intro p hp
  exact processOperators_by_op_bound d.operators [] [] [] (by simp) p hp

theorem rebuildCache_found (d : LogList) (now : Nat) (op : Operator)
    (hmem : op ∈ d.operators) (hnd : (d.operators.map Operator.name).Nodup) :
    ∃ idxs, hmGet (rebuildCache d now).logs_by_operator op.name = some idxs ∧
      idxs.map (getIdx (rebuildCache d now).logs) = (usableOf op.logs).map some := by
  exact processOperators_found d.operators [] [] [] op hmem hnd

theorem get_by_id_ok_mem (c : CachedLogs) (id : String) (l : Log)
    (h : get_by_id c id = some (LLRes.ok l)) : l ∈ c.logs := by
  unfold get_by_id at h
  cases hg : hmGet c.logs_by_id id with
  | none => simp [hg] at h
  | some index =>
    rw [hg] at h
    cases hi : getIdx c.logs index with
    | none => simp [hi] at h
    | some l' =>
      simp [hi] at h
      subst h
      exact getIdx_mem c.logs index l' hi

theorem get_all_ok_subset (c : CachedLogs) (opName : String) (ls : List Log)
    (h : get_all_by_operator c opName = some (LLRes.ok ls)) : ∀ l ∈ ls, l ∈ c.logs := by
  unfold get_all_by_operator at h
  cases hg : hmGet c.logs_by_operator opName with
  | none =>
    rw [hg] at h
    simp at h
    subst h
    simp
  | some indices =>
    rw [hg] at h
    cases hgl : getLogs c.logs indices with
    | none => simp [hgl] at h
    | some ls' =>
      simp [hgl] at h
      subst h
      exact getLogs_mem c.logs indices ls' hgl

/-! Helper lemmas about the watcher's traces. -/

theorem submitAttemptCount_append (a b : List WatchAction) :
    submitAttemptCount (a ++ b) = submitAttemptCount a + submitAttemptCount b := by
  simp [submitAttemptCount, List.filter_append]

theorem attemptTxs_append (a b : List WatchAction) :
    attemptTxs (a ++ b) = attemptTxs a ++ attemptTxs b := by
  simp [attemptTxs]

theorem attemptedData_append (a b : List WatchAction) :
    attemptedData (a ++ b) = attemptedData a ++ attemptedData b := by
  simp [attemptedData]

theorem attemptTxs_submitLoop (tx : Transaction) (n : Nat) :
    attemptTxs (submitLoop tx n) = List.replicate (n + 1) tx := by
  induction n with
  | zero => simp [submitLoop, attemptTxs]
  | succ k ih =>
    simp only [submitLoop, attemptTxs, List.filterMap_cons] at *
    simp [ih, List.replicate_succ]

theorem submitAttemptCount_eq_length (acts : List WatchAction) :
    submitAttemptCount acts = (attemptTxs acts).length := by
  induction acts with
  | nil => simp [submitAttemptCount, attemptTxs]
  | cons a rest ih =>
    cases a <;> simp [submitAttemptCount, attemptTxs, List.filter_cons,
      List.filterMap_cons] at * <;> simpa [submitAttemptCount, attemptTxs] using ih

theorem submitAttemptCount_submitLoop (tx : Transaction) (n : Nat) :
    submitAttemptCount (submitLoop tx n) = n + 1 := by
  rw [submitAttemptCount_eq_length, attemptTxs_submitLoop, List.length_replicate]

theorem submitOk_mem_submitLoop (tx : Transaction) (n : Nat) :
    WatchAction.submitOk tx ∈ submitLoop tx n := by
  induction n with
  | zero => simp [submitLoop]
  | succ k ih => simp [submitLoop, ih]

theorem appliesAfterAck_submitLoop (tx : Transaction) (n : Nat) :
    ∀ acked rest,
    appliesAfterAck acked (submitLoop tx n ++ rest) = appliesAfterAck (tx :: acked) rest := by
  induction n with
  | zero => intro acked rest; simp [submitLoop, appliesAfterAck]
  | succ k ih => intro acked rest; simp [submitLoop, appliesAfterAck, ih]

theorem appliesAfterAck_ok_self (tx : Transaction) (acked : List Transaction) :
    appliesAfterAck acked (submitLoop tx 0 ++ [WatchAction.applyAccount tx]) = true := by
  simp [submitLoop, appliesAfterAck]

/-! Step-shape lemmas for watchStep. -/

theorem watchStep_ok_unchanged (log_id : String) (log_vk service_sk : Nat)
    (s : WatchState) (head : SignedTreeHead) (f : Nat)
    (h : head.root_hash = s.last_tree_head) :
    watchStep log_id log_vk service_sk s (SthResult.ok head) f = (s, [], true) := by
  simp [watchStep, h]

theorem watchStep_ok_changed (log_id : String) (log_vk service_sk : Nat)
    (s : WatchState) (head : SignedTreeHead) (sig : Nat) (f : Nat)
    (hch : head.root_hash ≠ s.last_tree_head) (hsig : head.sig_parse = some sig) :
    watchStep log_id log_vk service_sk s (SthResult.ok head) f =
      ({ last_tree_head := head.root_hash,
         account := s.account.process_transaction (s.account.prepare_transaction log_id
           (Operation.setData head.body log_vk sig) service_sk) },
       WatchAction.setLastSeen head.root_hash ::
         (submitLoop (s.account.prepare_transaction log_id
             (Operation.setData head.body log_vk sig) service_sk) f ++
           [WatchAction.applyAccount (s.account.prepare_transaction log_id
             (Operation.setData head.body log_vk sig) service_sk)]),
       true) := by
  simp [watchStep, hch, hsig]

theorem watchStep_ok_badsig (log_id : String) (log_vk service_sk : Nat)
    (s : WatchState) (head : SignedTreeHead) (f : Nat)
    (hch : head.root_hash ≠ s.last_tree_head) (hsig : head.sig_parse = none) :
    watchStep log_id log_vk service_sk s (SthResult.ok head) f =
      ({ s with last_tree_head := head.root_hash },
       [WatchAction.setLastSeen head.root_hash], false) := by
  simp [watchStep, hch, hsig]

theorem watchStep_errWithSth_changed (log_id : String) (log_vk service_sk : Nat)
    (s : WatchState) (head : SignedTreeHead) (f : Nat)
    (hch : head.root_hash ≠ s.last_tree_head) :
    watchStep log_id log_vk service_sk s (SthResult.errWithSth head) f =
      ({ s with last_tree_head := head.root_hash },
       [WatchAction.logErr, WatchAction.setLastSeen head.root_hash], true) := by
  simp [watchStep, hch]

theorem watchStep_errWithSth_unchanged (log_id : String) (log_vk service_sk : Nat)
    (s : WatchState) (head : SignedTreeHead) (f : Nat)
    (h : head.root_hash = s.last_tree_head) :
    watchStep log_id log_vk service_sk s (SthResult.errWithSth head) f =
      (s, [WatchAction.logErr], true) := by
  simp [watchStep, h]

theorem watchRun_cons (log_id : String) (log_vk service_sk : Nat) (s : WatchState)
    (ev : SthResult) (f : Nat) (rest : List (SthResult × Nat)) :
    watchRun log_id log_vk service_sk s ((ev, f) :: rest) =
      if (watchStep log_id log_vk service_sk s ev f).2.2 then
        ((watchRun log_id log_vk service_sk (watchStep log_id log_vk service_sk s ev f).1 rest).1,
         (watchStep log_id log_vk service_sk s ev f).2.1 ++
           (watchRun log_id log_vk service_sk (watchStep log_id log_vk service_sk s ev f).1 rest).2)
      else
        ((watchStep log_id log_vk service_sk s ev f).1,
         (watchStep log_id log_vk service_sk s ev f).2.1) := by
  rfl

/-! Claim C3. -/

/-- C3 (counterexample): the claim quantifies over every fetched directory, but when
two operators share a name and a log id, the rebuild's last-writer-wins inserts make
the first operator's usable log unreachable through both get_by_id and
get_all_by_operator, refuting the stated if-and-only-if. -/
theorem claim_C3_counterexample :
    logDupOne.is_usable = true ∧
    reachableViaId (rebuildCache dirDup 5) logDupOne = false ∧
    reachableViaOperator (rebuildCache dirDup 5) "X" logDupOne = false := by
  refine ⟨rfl, ?_, ?_⟩ <;> decide

/-- C3 (amended): after a cache refresh from a directory whose operator names are
pairwise distinct, a log of an operator is reachable via get_by_id or
get_all_by_operator exactly when its state is Usable; logs in any other state (or
with no state) never appear in either result. -/
theorem claim_C3_theorem (d : LogList) (now : Nat) (op : Operator) (l : Log)
    (hnd : (d.operators.map Operator.name).Nodup)
    (hop : op ∈ d.operators) (hl : l ∈ op.logs) :
    ((reachableViaId (rebuildCache d now) l ||
      reachableViaOperator (rebuildCache d now) op.name l) = true)
      ↔ l.is_usable = true := by
  constructor
  · intro h
    rw [Bool.or_eq_true] at h
    rcases h with h1 | h2
    · unfold reachableViaId at h1
      cases hg : get_by_id (rebuildCache d now) l.log_id with
      | none => rw [hg] at h1; simp at h1
      | some r =>
        cases r with
        | err e => rw [hg] at h1; simp at h1
        | ok l' =>
          rw [hg] at h1
          simp only [decide_eq_true_eq] at h1
          subst h1
          exact rebuildCache_usable d now l' (get_by_id_ok_mem _ _ _ hg)
    · unfold reachableViaOperator at h2
      cases hg : get_all_by_operator (rebuildCache d now) op.name with
      | none => rw [hg] at h2; simp at h2
      | some r =>
        cases r with
        | err e => rw [hg] at h2; simp at h2
        | ok ls =>
          rw [hg] at h2
          simp only [decide_eq_true_eq] at h2
          exact rebuildCache_usable d now l (get_all_ok_subset _ _ _ hg l h2)
  · intro hu
    obtain ⟨idxs, hidxs, hmap⟩ := rebuildCache_found d now op hop hnd
    have hall : get_all_by_operator (rebuildCache d now) op.name =
        some (LLRes.ok (usableOf op.logs)) := by
      simp only [get_all_by_operator, hidxs]
      rw [getLogs_of_map _ _ _ hmap]
      rfl
    have hmem : l ∈ usableOf op.logs := List.mem_filter.mpr ⟨hl, hu⟩
    rw [Bool.or_eq_true]
    right
    unfold reachableViaOperator
    rw [hall]
    exact decide_eq_true hmem

/-- C3 (witness): the round-trip directory with one operator "Acme" instantiates the
amended claim at its usable log. -/
theorem claim_C3_witness :
    ((reachableViaId (rebuildCache dirAcme 3) logAcme1 ||
      reachableViaOperator (rebuildCache dirAcme 3) opAcme.name logAcme1) = true)
      ↔ logAcme1.is_usable = true :=
  claim_C3_theorem dirAcme 3 opAcme logAcme1 (by decide) (by decide) (by decide)

/-! Claim C4. -/

/-- C4 (counterexample): for an id absent from the usable-log index, get_by_id does
fail, but with the parse-failure variant ParseError("Log not found") — LogListError
has no dedicated not-found constructor, so the failure is not distinct from parse
failures as the claim requires. -/
theorem claim_C4_counterexample :
    service_get_by_id ServiceState.empty 0 (LLRes.ok emptyDir) "missing" =
      some (LLRes.err (LogListError.parseError "Log not found")) ∧
    isParseError (LogListError.parseError "Log not found") = true := by
  exact ⟨by decide, rfl⟩

/-- C4 (amended): for every id not present in the usable-log index after the
freshness step succeeds, get_by_id fails with ParseError("Log not found") — the
parse-error variant reused with a distinguishing message, there being no dedicated
NotFound variant in LogListError. -/
theorem claim_C4_theorem (s : ServiceState) (now : Nat) (fetchResult : LLRes LogList)
    (id : String) (s' : ServiceState) (n : Nat)
    (hok : check_and_refresh_cache s now fetchResult = LLRes.ok (s', n))
    (habs : hmGet s'.cache.logs_by_id id = none) :
    service_get_by_id s now fetchResult id =
      some (LLRes.err (LogListError.parseError "Log not found")) := by
  simp only [service_get_by_id, hok]
  simp only [get_by_id, habs]

/-- C4 (witness): on a fresh empty cache the lookup of "missing" takes the amended
claim's not-found path. -/
theorem claim_C4_witness :
    service_get_by_id ServiceState.empty 0 (LLRes.ok emptyDir) "nope" =
      some (LLRes.err (LogListError.parseError "Log not found")) :=
  claim_C4_theorem ServiceState.empty 0 (LLRes.ok emptyDir) "nope"
    ServiceState.empty 0 (by decide) rfl

/-! Claim C6. -/

/-- C6: whenever the freshness step succeeds, get_all_by_operator returns Ok([]) —
not an error — for every operator name that is absent from the cache or has no
usable logs indexed. -/
theorem claim_C6_theorem (s : ServiceState) (now : Nat) (fetchResult : LLRes LogList)
    (operator : String) (s' : ServiceState) (n : Nat)
    (hok : check_and_refresh_cache s now fetchResult = LLRes.ok (s', n))
    (habs : hmGet s'.cache.logs_by_operator operator = none ∨
            hmGet s'.cache.logs_by_operator operator = some []) :
    service_get_all_by_operator s now fetchResult operator = some (LLRes.ok []) := by
  simp only [service_get_all_by_operator, hok]
  rcases habs with h | h
  · simp only [get_all_by_operator, h]
  · simp only [get_all_by_operator, h]
    rfl

/-- C6 (witness): the unknown operator "Nobody" on a fresh empty cache yields Ok([]). -/
theorem claim_C6_witness :
    service_get_all_by_operator ServiceState.empty 0 (LLRes.ok emptyDir) "Nobody" =
      some (LLRes.ok []) :=
  claim_C6_theorem ServiceState.empty 0 (LLRes.ok emptyDir) "Nobody"
    ServiceState.empty 0 (by decide) (Or.inl rfl)

/-! Claim C7. -/

/-- C7: if now - last_refreshed < ttl the access serves from the unchanged cache with
zero directory fetches; if last_refreshed = now - (ttl + 1s) the access performs
exactly one fetch, rebuilds the indices and sets last_refreshed = now (the rebuilt
cache records now) before serving. -/
theorem claim_C7_theorem (s : ServiceState) (now : Nat) (fetchResult : LLRes LogList)
    (d : LogList) :
    (s.cache.last_updated ≤ now →
      now - s.cache.last_updated < s.cache_duration →
      check_and_refresh_cache s now fetchResult = LLRes.ok (s, 0)) ∧
    (now = s.cache.last_updated + s.cache_duration + 1 →
      fetchResult = LLRes.ok d →
      check_and_refresh_cache s now fetchResult =
        LLRes.ok ({ s with cache := rebuildCache d now }, 1)) := by
  constructor
  · intro h1 h2
    unfold check_and_refresh_cache duration_since
    simp [h1, h2]
  · intro h1 h2
    subst h2
    unfold check_and_refresh_cache duration_since
    have hle : s.cache.last_updated ≤ now := by omega
    have helapsed : now - s.cache.last_updated = s.cache_duration + 1 := by omega
    have hstale : ¬ (s.cache_duration + 1 < s.cache_duration) := by omega
    simp [hle, helapsed, hstale]

/-- C7 (witness): with ttl 100 and last_refreshed 0, an access at time 50 serves from
the cache with no fetch, and an access at time 101 performs exactly one fetch and
installs the rebuilt cache stamped 101. -/
theorem claim_C7_witness :
    check_and_refresh_cache svcW 50 (LLRes.ok emptyDir) = LLRes.ok (svcW, 0) ∧
    check_and_refresh_cache svcW 101 (LLRes.ok emptyDir) =
      LLRes.ok ({ svcW with cache := rebuildCache emptyDir 101 }, 1) :=
  ⟨(claim_C7_theorem svcW 50 (LLRes.ok emptyDir) emptyDir).1 (by decide) (by decide),
   (claim_C7_theorem svcW 101 (LLRes.ok emptyDir) emptyDir).2 (by decide) rfl⟩

/-! Claim C10. -/

/-- C10: after every completed cache refresh, every index stored in logs_by_id and in
every logs_by_operator entry is strictly less than the length of the logs vector, so
the vector indexing performed by get_by_id and get_all_by_operator is always in
bounds and never panics (both getters return some result for every query). -/
theorem claim_C10_theorem (d : LogList) (now : Nat) (id opName : String) :
    indicesInBounds (rebuildCache d now) = true ∧
    (get_by_id (rebuildCache d now) id).isSome = true ∧
    (get_all_by_operator (rebuildCache d now) opName).isSome = true := by
  refine ⟨?_, ?_, ?_⟩
  · unfold indicesInBounds
    rw [Bool.and_eq_true]
    constructor
    · rw [List.all_eq_true]
      intro kv hkv
      exact decide_eq_true (rebuildCache_by_id_bound d now kv hkv)
    · rw [List.all_eq_true]
      intro kv hkv
      rw [List.all_eq_true]
      intro i hi
      exact decide_eq_true (rebuildCache_by_op_bound d now kv hkv i hi)
  · unfold get_by_id
    cases hg : hmGet (rebuildCache d now).logs_by_id id with
    | none => simp
    | some index =>
      have hb := rebuildCache_by_id_bound d now (id, index) (hmGet_mem _ _ _ hg)
      obtain ⟨l, hl⟩ := Option.isSome_iff_exists.mp (getIdx_isSome _ _ hb)
      simp [hl]
  · unfold get_all_by_operator
    cases hg : hmGet (rebuildCache d now).logs_by_operator opName with
    | none => simp
    | some indices =>
      have hb := rebuildCache_by_op_bound d now (opName, indices) (hmGet_mem _ _ _ hg)
      obtain ⟨ls, hls⟩ := Option.isSome_iff_exists.mp (getLogs_isSome _ _ hb)
      simp [hls]

/-! Claim C1. -/

/-- C1 (counterexample): watch_log assigns last_tree_head before any submission; on
the path where the tree-head signature fails to parse, the iteration has already
updated last_seen_root_hash when it returns an error, with no submission attempted,
let alone acknowledged — refuting the claim that progress state is updated strictly
after ledger acknowledgment on every path. -/
theorem claim_C1_counterexample :
    seenAfterAck false (watchStep "L" 0 0 wsInit (SthResult.ok headBadSig) 0).2.1 = false ∧
    (watchStep "L" 0 0 wsInit (SthResult.ok headBadSig) 0).1.last_tree_head =
      headBadSig.root_hash ∧
    (watchStep "L" 0 0 wsInit (SthResult.ok headBadSig) 0).2.2 = false ∧
    submitAttemptCount (watchStep "L" 0 0 wsInit (SthResult.ok headBadSig) 0).2.1 = 0 := by
  decide

/-- C1 (amended): only the account half of the claim holds — on every execution path
of a watch_log iteration, the local account state is updated strictly after the
ledger acknowledges the corresponding submission (every applyAccount is preceded by
a submitOk of the same transaction, and any account change is through such an
acknowledged transaction); last_seen_root_hash, by contrast, is updated at change
detection time, before submission, and even on failing or anomalous paths. -/
theorem claim_C1_theorem (log_id : String) (log_vk service_sk : Nat) (s : WatchState)
    (ev : SthResult) (f : Nat) :
    appliesAfterAck [] (watchStep log_id log_vk service_sk s ev f).2.1 = true ∧
    ((watchStep log_id log_vk service_sk s ev f).1.account = s.account ∨
      ∃ tx, WatchAction.submitOk tx ∈ (watchStep log_id log_vk service_sk s ev f).2.1 ∧
        (watchStep log_id log_vk service_sk s ev f).1.account =
          s.account.process_transaction tx) := by
  cases ev with
  | ok head =>
    by_cases hch : head.root_hash = s.last_tree_head
    · rw [watchStep_ok_unchanged _ _ _ _ _ _ hch]
      exact ⟨rfl, Or.inl rfl⟩
    · cases hsig : head.sig_parse with
      | none =>
        rw [watchStep_ok_badsig _ _ _ _ _ _ hch hsig]
        exact ⟨rfl, Or.inl rfl⟩
      | some sig =>
        rw [watchStep_ok_changed _ _ _ _ _ sig _ hch hsig]
        constructor
        · simp only [appliesAfterAck]
          rw [appliesAfterAck_submitLoop]
          simp [appliesAfterAck]
        · right
          exact ⟨_, List.mem_cons_of_mem _
            (List.mem_append_left _ (submitOk_mem_submitLoop _ f)), rfl⟩
  | err => exact ⟨rfl, Or.inl rfl⟩
  | errWithSth head =>
    by_cases hch : head.root_hash = s.last_tree_head
    · rw [watchStep_errWithSth_unchanged _ _ _ _ _ _ hch]
      exact ⟨rfl, Or.inl rfl⟩
    · rw [watchStep_errWithSth_changed _ _ _ _ _ _ hch]
      exact ⟨rfl, Or.inl rfl⟩

/-! Claim C2. -/

/-- C2 (counterexample): feeding the watcher [A, A, B, B, C] with A nonzero produces
three submission attempts, not two: last_tree_head starts as 32 zero bytes, so the
first A also differs from the last seen hash and is submitted. -/
theorem claim_C2_counterexample :
    submitAttemptCount (watchRun "L" 0 0 wsInit eventsAABBC).2 = 3 ∧ (3 : Nat) ≠ 2 := by
  exact ⟨by decide, by decide⟩

/-- C2 (amended): for checkpoints [A, A, B, B, C] with pairwise distinct root hashes,
A nonzero and every submission succeeding, exactly three submission attempts are
made — one for the first A (the initial last seen hash being the zero hash), one for
B and one for C — and none for the repeated A's or repeated B's. -/
theorem claim_C2_theorem (log_id : String) (log_vk service_sk : Nat) (acc : Account)
    (hA hA2 hB hB2 hC : SignedTreeHead) (sA sB sC : Nat)
    (hA2eq : hA2.root_hash = hA.root_hash) (hB2eq : hB2.root_hash = hB.root_hash)
    (hAnz : hA.root_hash ≠ zeros32)
    (hAB : hB.root_hash ≠ hA.root_hash) (hBC : hC.root_hash ≠ hB.root_hash)
    (_hAC : hC.root_hash ≠ hA.root_hash)
    (hsA : hA.sig_parse = some sA) (hsB : hB.sig_parse = some sB)
    (hsC : hC.sig_parse = some sC) :
    submitAttemptCount (watchRun log_id log_vk service_sk
      { last_tree_head := zeros32, account := acc }
      [(SthResult.ok hA, 0), (SthResult.ok hA2, 0), (SthResult.ok hB, 0),
       (SthResult.ok hB2, 0), (SthResult.ok hC, 0)]).2 = 3 ∧
    attemptedData (watchRun log_id log_vk service_sk
      { last_tree_head := zeros32, account := acc }
      [(SthResult.ok hA, 0), (SthResult.ok hA2, 0), (SthResult.ok hB, 0),
       (SthResult.ok hB2, 0), (SthResult.ok hC, 0)]).2 = [hA.body, hB.body, hC.body] := by
  constructor <;>
    simp [watchRun, watchStep, hsA, hsB, hsC, hA2eq, hB2eq, hAnz, hAB, hBC,
      submitLoop, submitAttemptCount, attemptedData, List.filter_append,
      Account.prepare_transaction, Account.process_transaction]

/-- C2 (witness): the amended claim instantiated on the concrete A, B, C heads. -/
theorem claim_C2_witness :
    submitAttemptCount (watchRun "L" 0 0
      { last_tree_head := zeros32, account := Account.defaultAccount }
      [(SthResult.ok headA, 0), (SthResult.ok headA, 0), (SthResult.ok headB, 0),
       (SthResult.ok headB, 0), (SthResult.ok headC, 0)]).2 = 3 ∧
    attemptedData (watchRun "L" 0 0
      { last_tree_head := zeros32, account := Account.defaultAccount }
      [(SthResult.ok headA, 0), (SthResult.ok headA, 0), (SthResult.ok headB, 0),
       (SthResult.ok headB, 0), (SthResult.ok headC, 0)]).2 =
      [headA.body, headB.body, headC.body] :=
  claim_C2_theorem "L" 0 0 Account.defaultAccount headA headA headB headB headC 10 20 30
    rfl rfl (by decide) (by decide) (by decide) (by decide) rfl rfl rfl

/-! Claim C5. -/

/-- C5: when the ledger fails a checkpoint submission N times and then accepts it,
the watcher makes exactly N+1 submission attempts, every attempt carries the
verbatim same prepared transaction, every account application in the trace follows
the acknowledgment of that same transaction, and the resulting account state is the
prior state advanced by exactly that transaction. -/
theorem claim_C5_theorem (log_id : String) (log_vk service_sk : Nat) (s : WatchState)
    (head : SignedTreeHead) (sig : Nat) (N : Nat)
    (hch : head.root_hash ≠ s.last_tree_head) (hsig : head.sig_parse = some sig) :
    submitAttemptCount (watchStep log_id log_vk service_sk s (SthResult.ok head) N).2.1
      = N + 1 ∧
    attemptTxs (watchStep log_id log_vk service_sk s (SthResult.ok head) N).2.1 =
      List.replicate (N + 1) (s.account.prepare_transaction log_id
        (Operation.setData head.body log_vk sig) service_sk) ∧
    appliesAfterAck [] (watchStep log_id log_vk service_sk s (SthResult.ok head) N).2.1
      = true ∧
    (watchStep log_id log_vk service_sk s (SthResult.ok head) N).1.account =
      s.account.process_transaction (s.account.prepare_transaction log_id
        (Operation.setData head.body log_vk sig) service_sk) := by
  rw [watchStep_ok_changed _ _ _ _ _ sig _ hch hsig]
  refine ⟨?_, ?_, ?_, rfl⟩
  · rw [show (WatchAction.setLastSeen head.root_hash ::
        (submitLoop (s.account.prepare_transaction log_id
          (Operation.setData head.body log_vk sig) service_sk) N ++
         [WatchAction.applyAccount (s.account.prepare_transaction log_id
          (Operation.setData head.body log_vk sig) service_sk)])) =
        [WatchAction.setLastSeen head.root_hash] ++
        submitLoop (s.account.prepare_transaction log_id
          (Operation.setData head.body log_vk sig) service_sk) N ++
        [WatchAction.applyAccount (s.account.prepare_transaction log_id
          (Operation.setData head.body log_vk sig) service_sk)] from by simp]
    rw [submitAttemptCount_append, submitAttemptCount_append,
      submitAttemptCount_submitLoop]
    simp [submitAttemptCount]
  · rw [show (WatchAction.setLastSeen head.root_hash ::
        (submitLoop (s.account.prepare_transaction log_id
          (Operation.setData head.body log_vk sig) service_sk) N ++
         [WatchAction.applyAccount (s.account.prepare_transaction log_id
          (Operation.setData head.body log_vk sig) service_sk)])) =
        [WatchAction.setLastSeen head.root_hash] ++
        submitLoop (s.account.prepare_transaction log_id
          (Operation.setData head.body log_vk sig) service_sk) N ++
        [WatchAction.applyAccount (s.account.prepare_transaction log_id
          (Operation.setData head.body log_vk sig) service_sk)] from by simp]
    rw [attemptTxs_append, attemptTxs_append, attemptTxs_submitLoop]
    simp [attemptTxs]
  · simp only [appliesAfterAck]
    rw [appliesAfterAck_submitLoop]
    simp [appliesAfterAck]

/-- C5 (witness): two simulated failures then success on head A yields exactly three
attempts of the same transaction, acknowledged before the account advances. -/
theorem claim_C5_witness :
    submitAttemptCount (watchStep "L" 0 0 wsInit (SthResult.ok headA) 2).2.1 = 3 ∧
    attemptTxs (watchStep "L" 0 0 wsInit (SthResult.ok headA) 2).2.1 =
      List.replicate 3 (wsInit.account.prepare_transaction "L"
        (Operation.setData headA.body 0 10) 0) ∧
    appliesAfterAck [] (watchStep "L" 0 0 wsInit (SthResult.ok headA) 2).2.1 = true ∧
    (watchStep "L" 0 0 wsInit (SthResult.ok headA) 2).1.account =
      wsInit.account.process_transaction (wsInit.account.prepare_transaction "L"
        (Operation.setData headA.body 0 10) 0) :=
  claim_C5_theorem "L" 0 0 wsInit headA 10 2 (by decide) rfl

/-! Claim C8. -/

/-- C8: running register_ct_service when the ledger already has the well-known
service account submits nothing and returns success, and two sequential successful
runs submit the registration at most once in total. -/
theorem claim_C8_theorem (p : ProverState) (ks1 ks2 : Option Nat)
    (p1 p2 : ProverState) (n1 n2 : Nat)
    (h1 : register_ct_service p ks1 = some (p1, n1))
    (h2 : register_ct_service p1 ks2 = some (p2, n2)) :
    (CT_SERVICE_KEY_ID ∈ p.accounts → register_ct_service p ks1 = some (p, 0)) ∧
    n1 + n2 ≤ 1 := by
  by_cases hmem : CT_SERVICE_KEY_ID ∈ p.accounts
  · have e1 : register_ct_service p ks1 = some (p, 0) := by
      simp [register_ct_service, hmem]
    refine ⟨fun _ => e1, ?_⟩
    rw [e1] at h1
    simp only [Option.some.injEq, Prod.mk.injEq] at h1
    obtain ⟨hp1, hn1⟩ := h1
    subst hp1
    have e2 : register_ct_service p ks2 = some (p, 0) := by
      simp [register_ct_service, hmem]
    rw [e2] at h2
    simp only [Option.some.injEq, Prod.mk.injEq] at h2
    omega
  · refine ⟨fun hmem' => absurd hmem' hmem, ?_⟩
    cases ks1 with
    | none => simp [register_ct_service, hmem] at h1
    | some vk =>
      have e1 : register_ct_service p (some vk) =
          some (submitTx p (Account.defaultAccount.prepare_transaction CT_SERVICE_KEY_ID
            (Operation.registerService CT_SERVICE_KEY_ID vk) vk), 1) := by
        simp [register_ct_service, hmem]
      rw [e1] at h1
      simp only [Option.some.injEq, Prod.mk.injEq] at h1
      obtain ⟨hp1, hn1⟩ := h1
      have hmem1 : CT_SERVICE_KEY_ID ∈ p1.accounts := by
        rw [← hp1]
        simp [submitTx, Account.prepare_transaction]
      have e2 : register_ct_service p1 ks2 = some (p1, 0) := by
        simp [register_ct_service, hmem1]
      rw [e2] at h2
      simp only [Option.some.injEq, Prod.mk.injEq] at h2
      omega

/-- C8 (witness): on a ledger already holding the service account, two sequential
runs both succeed without submitting. -/
theorem claim_C8_witness :
    (CT_SERVICE_KEY_ID ∈ proverWithService.accounts →
      register_ct_service proverWithService none = some (proverWithService, 0)) ∧
    (0 : Nat) + 0 ≤ 1 :=
  claim_C8_theorem proverWithService none none proverWithService proverWithService 0 0
    (by decide) (by decide)

/-! Claim C9. -/

/-- C9: when a fetch yields an error together with a checkpoint whose root hash H
differs from the last seen one, the watcher records H as last seen without any
submission attempt, and a following cleanly verified checkpoint with the same root
hash H triggers no submission either — the run makes zero submission attempts and
leaves the account untouched. -/
theorem claim_C9_theorem (log_id : String) (log_vk service_sk : Nat) (s : WatchState)
    (h h' : SignedTreeHead) (f1 f2 : Nat)
    (hne : h.root_hash ≠ s.last_tree_head) (heq : h'.root_hash = h.root_hash) :
    submitAttemptCount (watchRun log_id log_vk service_sk s
      [(SthResult.errWithSth h, f1), (SthResult.ok h', f2)]).2 = 0 ∧
    (watchRun log_id log_vk service_sk s
      [(SthResult.errWithSth h, f1), (SthResult.ok h', f2)]).1.last_tree_head =
      h.root_hash ∧
    (watchRun log_id log_vk service_sk s
      [(SthResult.errWithSth h, f1), (SthResult.ok h', f2)]).1.account = s.account := by
  refine ⟨?_, ?_, ?_⟩ <;>
    simp [watchRun, watchStep, hne, heq, submitAttemptCount]

/-- C9 (witness): an anomalous fetch of head A followed by a clean fetch of head A
yields no submissions while last seen becomes A's root hash. -/
theorem claim_C9_witness :
    submitAttemptCount (watchRun "L" 0 0 wsInit
      [(SthResult.errWithSth headA, 0), (SthResult.ok headA, 1)]).2 = 0 ∧
    (watchRun "L" 0 0 wsInit
      [(SthResult.errWithSth headA, 0), (SthResult.ok headA, 1)]).1.last_tree_head =
      headA.root_hash ∧
    (watchRun "L" 0 0 wsInit
      [(SthResult.errWithSth headA, 0), (SthResult.ok headA, 1)]).1.account =
      wsInit.account :=
  claim_C9_theorem "L" 0 0 wsInit headA headA 0 1 (by decide) rfl

end PrismCT
